import Mathlib

/-!
Shallow embedding of the Distributed-Cache repository (Go).

The cache engine (package `cache`, file with `Cache`, `Set`, `Get`, `Has`,
`Delete`, `Keys`, `Metrics`, `startEviction`, `BatchSet`) is modelled as a
pure state: Go maps become association lists, `time.Time` and
`time.Duration` become `Int` (nanoseconds), and every method becomes a
function on the state, parameterised by the current time `now` where the Go
code calls `time.Now()`.  Goroutines spawned by the code (the one-shot
eviction timer, the asynchronous delete on an expired read) are modelled as
separate atomic actions (`CacheOp.evict`, `CacheOp.del`) that may run at any
later time, which matches the sequential consistency granted by the single
`sync.RWMutex` guarding every method body.

The wire protocol (`protocol/protocol.go`) and the server dispatcher
(`server/server.go`) are embedded below the cache model.
-/

namespace DistCache

/-- Left-biased choice on options, used to reason about association-list
lookups across appends. -/
def oor {α : Type} : Option α → Option α → Option α
  | some v, _ => some v
  | none, b => b

/-- Lookup in an association list, modelling a read `m[k]` of a Go map. -/
def mapGet {α : Type} (k : String) : List (String × α) → Option α
  | [] => none
  | (k', v) :: rest => if k' = k then some v else mapGet k rest

/-- Removal of every binding of a key, modelling Go `delete(m, k)`. -/
def mapDel {α : Type} (k : String) : List (String × α) → List (String × α)
  | [] => []
  | (k', v) :: rest => if k' = k then mapDel k rest else (k', v) :: mapDel k rest

/-- Insertion `m[k] = v` of a Go map: the key gets exactly one binding. -/
def mapSet {α : Type} (k : String) (v : α) (l : List (String × α)) :
    List (String × α) :=
  (k, v) :: mapDel k l

/-- Metrics counters of the cache engine (`CacheMetrics` in Go: four
`uint64` counters that are only ever incremented). -/
structure CacheMetrics where
  Hits : Nat
  Misses : Nat
  Sets : Nat
  Deletes : Nat
deriving DecidableEq

/-- State of the cache engine (`Cache` in Go): the `data` map, the `expiry`
map (absolute expiry instants, nanoseconds), and the metrics record.  The
`sync.RWMutex` makes every method an atomic state transition and is not
represented. -/
structure Cache where
  data : List (String × String)
  expiry : List (String × Int)
  metrics : CacheMetrics
deriving DecidableEq

/-- Embedding of Go `NewCache()`: empty maps, zeroed metrics. -/
def NewCache : Cache :=
  { data := [], expiry := [], metrics := ⟨0, 0, 0, 0⟩ }

/-- Embedding of the expiry test repeated in `Get`, `Has`, `Keys` and
`startEviction`: `exp, exists := c.expiry[key]; exists && time.Now().After(exp)`.
Go `time.Time.After` is a strict comparison, so the entry is expired iff
`now > exp`. -/
def expired (c : Cache) (key : String) (now : Int) : Bool :=
  match mapGet key c.expiry with
  | some exp => decide (now > exp)
  | none => false

/-- Embedding of Go `Cache.Set`: unconditional upsert of the value,
increment of `Sets`, and, only when `ttl > 0`, a new expiry record at
`now + ttl` (the spawned eviction timer is the separate `CacheOp.evict`
action).  The returned option is the Go `error` result, always `nil`. -/
def Cache.Set (c : Cache) (key value : String) (ttl now : Int) :
    Cache × Option String :=
  let c1 : Cache :=
    { c with data := mapSet key value c.data,
             metrics := { c.metrics with Sets := c.metrics.Sets + 1 } }
  if ttl > 0 then
    ({ c1 with expiry := mapSet key (now + ttl) c1.expiry }, none)
  else
    (c1, none)

/-- Embedding of Go `Cache.Get`: a miss (absent key) or an expired entry
increments `Misses` and returns the corresponding error string built by
`fmt.Errorf`; otherwise `Hits` is incremented and the value returned.  The
asynchronous `go c.Delete(key)` fired on the expired branch is the separate
`CacheOp.del` action. -/
def Cache.Get (c : Cache) (key : String) (now : Int) :
    Cache × Except String String :=
  match mapGet key c.data with
  | none =>
    ({ c with metrics := { c.metrics with Misses := c.metrics.Misses + 1 } },
     Except.error ("key (" ++ key ++ ") not found"))
  | some val =>
    if expired c key now then
      ({ c with metrics := { c.metrics with Misses := c.metrics.Misses + 1 } },
       Except.error ("key (" ++ key ++ ") has expired"))
    else
      ({ c with metrics := { c.metrics with Hits := c.metrics.Hits + 1 } },
       Except.ok val)

/-- Embedding of Go `Cache.Has`: presence in `data` and not expired; no
metrics mutation. -/
def Cache.Has (c : Cache) (key : String) (now : Int) : Bool :=
  match mapGet key c.data with
  | none => false
  | some _ => !(expired c key now)

/-- Embedding of Go `Cache.Delete`: unconditionally delete from both maps
and increment `Deletes`; the Go method always returns `nil`. -/
def Cache.Delete (c : Cache) (key : String) : Cache × Option String :=
  ({ c with data := mapDel key c.data,
            expiry := mapDel key c.expiry,
            metrics := { c.metrics with Deletes := c.metrics.Deletes + 1 } },
   none)

/-- Embedding of Go `Cache.Keys`: every key of `data` whose entry is not
expired (`!exists || !time.Now().After(exp)`), in map-iteration order. -/
def Cache.Keys (c : Cache) (now : Int) : List String :=
  (c.data.filter (fun p => !(expired c p.1 now))).map (fun p => p.1)

/-- Embedding of Go `Cache.Metrics`: a field-by-field copy of the counters
(in Go a freshly allocated `CacheMetrics`, so later mutation of the cache
does not alter a returned snapshot; here the copy is a plain value). -/
def Cache.Metrics (c : Cache) : CacheMetrics :=
  { Hits := c.metrics.Hits, Misses := c.metrics.Misses,
    Sets := c.metrics.Sets, Deletes := c.metrics.Deletes }

/-- Embedding of the body of Go `Cache.startEviction` at the instant the
one-shot timer fires: it re-reads the current expiry record and deletes the
key from both maps (incrementing `Deletes`) only when that record exists
and has passed. -/
def Cache.startEviction (c : Cache) (key : String) (now : Int) : Cache :=
  match mapGet key c.expiry with
  | some exp =>
    if now > exp then
      { c with data := mapDel key c.data,
               expiry := mapDel key c.expiry,
               metrics := { c.metrics with Deletes := c.metrics.Deletes + 1 } }
    else c
  | none => c

/-- Embedding of Go `Cache.BatchSet`: the `Set` upsert applied to every
pair under one lock acquisition; always returns `nil`. -/
def Cache.BatchSet (c : Cache) (pairs : List (String × String)) (ttl now : Int) :
    Cache × Option String :=
  (pairs.foldl
    (fun acc p =>
      let c1 : Cache :=
        { acc with data := mapSet p.1 p.2 acc.data,
                   metrics := { acc.metrics with Sets := acc.metrics.Sets + 1 } }
      if ttl > 0 then { c1 with expiry := mapSet p.1 (now + ttl) c1.expiry }
      else c1)
    c, none)

/-- Atomic actions on the cache engine.  Each constructor is one critical
section of the Go code: the public methods, plus `evict` for the body of a
fired `startEviction` timer (the asynchronous delete spawned by an expired
`Get` is a `del`). -/
inductive CacheOp where
  | set (key value : String) (ttl : Int)
  | batchSet (pairs : List (String × String)) (ttl : Int)
  | get (key : String)
  | has (key : String)
  | del (key : String)
  | keys
  | metrics
  | evict (key : String)
deriving DecidableEq

/-- State transition of one atomic action executed at time `now`. -/
def applyOp (now : Int) (op : CacheOp) (c : Cache) : Cache :=
  match op with
  | .set k v ttl => (c.Set k v ttl now).1
  | .batchSet ps ttl => (c.BatchSet ps ttl now).1
  | .get k => (c.Get k now).1
  | .has _ => c
  | .del k => (c.Delete k).1
  | .keys => c
  | .metrics => c
  | .evict k => c.startEviction k now

/-- Execution of a timed trace of atomic actions from a given state. -/
def runOps (ops : List (Int × CacheOp)) (c : Cache) : Cache :=
  ops.foldl (fun acc p => applyOp p.1 p.2 acc) c

/-- Every key recorded in the expiry map is also present in the data map. -/
def ExpiryInvariant (c : Cache) : Prop :=
  ∀ k, (mapGet k c.expiry).isSome = true → (mapGet k c.data).isSome = true

/-- Whitespace as tested by Go `unicode.IsSpace` for the code points that
fit in Latin-1: space, tab, newline, vertical tab, form feed, carriage
return, next line (U+0085) and no-break space (U+00A0). -/
def isSpace (c : Char) : Bool :=
  c.toNat = 32 || c.toNat = 9 || c.toNat = 10 || c.toNat = 11 ||
  c.toNat = 12 || c.toNat = 13 || c.toNat = 133 || c.toNat = 160

/-- Single pass of Go `strings.Fields`: split around runs of whitespace,
keeping only the non-empty words.  `acc` holds the reversed current word. -/
def fieldsAux : List Char → List Char → List (List Char)
  | [], acc => if acc.isEmpty then [] else [acc.reverse]
  | c :: rest, acc =>
    if isSpace c then
      if acc.isEmpty then fieldsAux rest []
      else acc.reverse :: fieldsAux rest []
    else fieldsAux rest (c :: acc)

/-- Embedding of Go `strings.Fields`. -/
def fieldsStr (s : String) : List String :=
  (fieldsAux s.data []).map List.asString

/-- Decimal digit character, used to model the `%d` verb of `fmt.Sprintf`
(callers only apply it to values below ten). -/
def digitChar : Nat → Char
  | 0 => '0'
  | 1 => '1'
  | 2 => '2'
  | 3 => '3'
  | 4 => '4'
  | 5 => '5'
  | 6 => '6'
  | 7 => '7'
  | 8 => '8'
  | _ => '9'

/-- Digits of a natural number, most significant first; `fuel` bounds the
recursion depth and is kept at least the number of digits by callers. -/
def natDigitsAux : Nat → Nat → List Char
  | 0, _ => []
  | fuel + 1, n =>
    if n < 10 then [digitChar n]
    else natDigitsAux fuel (n / 10) ++ [digitChar (n % 10)]

/-- Decimal digits of a natural number, most significant first. -/
def natDigits (n : Nat) : List Char :=
  natDigitsAux (n + 1) n

/-- Decimal rendering of a natural number. -/
def natToString (n : Nat) : String :=
  (natDigits n).asString

/-- Embedding of `fmt.Sprintf("%d", i)` on a signed integer (Go renders a
`time.Duration` under `%d` as its signed nanosecond count). -/
def intToString (i : Int) : String :=
  if i < 0 then "-" ++ natToString (-i).toNat else natToString i.toNat

/-- Sign handling of Go `strconv.ParseInt`: an optional leading `+` or `-`
before the digit string; the boolean is true for a negative number. -/
def splitSign : List Char → Bool × List Char
  | [] => (false, [])
  | c :: rest =>
    if c = '+' then (false, rest)
    else if c = '-' then (true, rest)
    else (false, c :: rest)

/-- Numeric value of a digit string, as accumulated by `strconv.ParseInt`. -/
def digitsVal (l : List Char) : Nat :=
  l.foldl (fun a c => a * 10 + (c.toNat - 48)) 0

/-- Embedding of Go `strconv.ParseInt(s, 10, 64)`: optional sign, then a
non-empty run of decimal digits, rejected when the value leaves the 64-bit
signed range; error strings follow the `strconv` `NumError` rendering. -/
def parseInt64 (s : String) : Except String Int :=
  let sd := splitSign s.data
  if sd.2.isEmpty || !(sd.2.all Char.isDigit) then
    Except.error ("strconv.ParseInt: parsing \"" ++ s ++ "\": invalid syntax")
  else
    let v : Int := if sd.1 then -(digitsVal sd.2 : Int) else (digitsVal sd.2 : Int)
    if v < -9223372036854775808 ∨ 9223372036854775807 < v then
      Except.error ("strconv.ParseInt: parsing \"" ++ s ++ "\": value out of range")
    else
      Except.ok v

/-- Embedding of Go `strings.Split(s, sep)` for a one-character separator:
every (possibly empty) chunk between separators, never the empty list. -/
def splitOnChar (sep : Char) : List Char → List (List Char)
  | [] => [[]]
  | c :: rest =>
    if c = sep then [] :: splitOnChar sep rest
    else
      match splitOnChar sep rest with
      | [] => [[c]]
      | w :: ws => (c :: w) :: ws

/-- Comma split of the BATCH pair list, Go `strings.Split(parts[1], ",")`. -/
def splitComma (s : String) : List String :=
  (splitOnChar ',' s.data).map List.asString

/-- Split at the first occurrence of `sep`, or `none` when absent. -/
def splitFirst (sep : Char) : List Char → Option (List Char × List Char)
  | [] => none
  | c :: rest =>
    if c = sep then some ([], rest)
    else
      match splitFirst sep rest with
      | some p => some (c :: p.1, p.2)
      | none => none

/-- Embedding of Go `strings.SplitN(pair, ":", 2)` together with the arity
check `len(kv) != 2`: the key/value halves when a colon is present. -/
def splitN2 (s : String) : Option (String × String) :=
  match splitFirst ':' s.data with
  | some p => some (p.1.asString, p.2.asString)
  | none => none

/-- Embedding of Go `strings.Join(elems, ",")`. -/
def joinComma : List String → String
  | [] => ""
  | [s] => s
  | s :: rest => s ++ "," ++ joinComma rest

/-- Wire message (`protocol.Message` in Go): the command string plus the
variant-specific payload fields, zero-valued when unused.  Go's `Command`
type is a plain string, so unknown commands are representable. -/
structure Message where
  Cmd : String
  Key : String
  Value : String
  TTL : Int
  Pairs : List (String × String)
deriving DecidableEq

/-- Embedding of Go `Message.ToBytes`: the textual wire form of the known
variants, `none` for the `nil` returned on an unknown command.  The BATCH
pair list is rendered in list order (Go iterates its map). -/
def Message.ToBytes (m : Message) : Option String :=
  if m.Cmd = "SET" then
    some ("SET " ++ m.Key ++ " " ++ m.Value ++ " " ++ intToString m.TTL)
  else if m.Cmd = "GET" ∨ m.Cmd = "HAS" ∨ m.Cmd = "DEL" then
    some (m.Cmd ++ " " ++ m.Key)
  else if m.Cmd = "KEYS" then
    some "KEYS"
  else if m.Cmd = "METRICS" then
    some "METRICS"
  else if m.Cmd = "BATCH" then
    some ("BATCH " ++
      joinComma (m.Pairs.map (fun p => p.1 ++ ":" ++ p.2)) ++
      " " ++ intToString m.TTL)
  else
    none

/-- Parse failures of `ParseCommand`, by kind; `message` renders the exact
Go error strings. -/
inductive ParseError where
  | invalidCommand : ParseError
  | invalidFormat : String → ParseError
  | invalidTTL : String → ParseError
  | invalidPair : ParseError
deriving DecidableEq

/-- Error text as produced by the Go code (`errors.New` / `fmt.Errorf`). -/
def ParseError.message : ParseError → String
  | .invalidCommand => "invalid command"
  | .invalidFormat cmd => "invalid " ++ cmd ++ " command format"
  | .invalidTTL e => "invalid TTL: " ++ e
  | .invalidPair => "invalid key-value pair in BATCH"

/-- BATCH pair assembly loop of `ParseCommand`: each comma chunk must
contain a colon, and the pairs land in a Go map (`mapSet`, so a duplicate
key keeps its last value). -/
def parsePairs : List String → List (String × String) → Option (List (String × String))
  | [], acc => some acc
  | p :: rest, acc =>
    match splitN2 p with
    | some kv => parsePairs rest (mapSet kv.1 kv.2 acc)
    | none => none

/-- Embedding of Go `ParseCommand`: whitespace tokenization, the per-variant
arity checks, TTL parsing for SET/BATCH, pair assembly for BATCH, and the
fall-through that accepts any unknown command verbatim. -/
def parseCommand (raw : String) : Except ParseError Message :=
  match fieldsStr raw with
  | [] => Except.error ParseError.invalidCommand
  | cmd :: args =>
    if cmd = "SET" then
      match args with
      | [key, value, ttlTok] =>
        match parseInt64 ttlTok with
        | .error e => Except.error (ParseError.invalidTTL e)
        | .ok ttl => Except.ok ⟨"SET", key, value, ttl, []⟩
      | _ => Except.error (ParseError.invalidFormat "SET")
    else if cmd = "GET" ∨ cmd = "HAS" ∨ cmd = "DEL" then
      match args with
      | [key] => Except.ok ⟨cmd, key, "", 0, []⟩
      | _ => Except.error (ParseError.invalidFormat cmd)
    else if cmd = "KEYS" ∨ cmd = "METRICS" then
      match args with
      | [] => Except.ok ⟨cmd, "", "", 0, []⟩
      | _ => Except.error (ParseError.invalidFormat cmd)
    else if cmd = "BATCH" then
      match args with
      | pairsTok :: ttlTok :: _ =>
        match parsePairs (splitComma pairsTok) [] with
        | none => Except.error ParseError.invalidPair
        | some prs =>
          match parseInt64 ttlTok with
          | .error e => Except.error (ParseError.invalidTTL e)
          | .ok ttl => Except.ok ⟨"BATCH", "", "", ttl, prs⟩
      | _ => Except.error (ParseError.invalidFormat "BATCH")
    else
      Except.ok ⟨cmd, "", "", 0, []⟩

/-- Embedding of `json.Marshal` on the metrics record: field order follows
the Go struct declaration. -/
def metricsJson (m : CacheMetrics) : String :=
  "\x7b\"Hits\":" ++ natToString m.Hits ++
  ",\"Misses\":" ++ natToString m.Misses ++
  ",\"Sets\":" ++ natToString m.Sets ++
  ",\"Deletes\":" ++ natToString m.Deletes ++ "\x7d"

/-- Embedding of `Server.handleCommand` together with the per-variant
handlers (`server/server.go`): the returned option is the single reply
written to the connection for the payload, `none` when no write happens
(the switch falls through on an unrecognized command and the error variable
stays nil).  Replication fan-out and reply-write failures are outside this
function, as in the Go dispatcher the reply is based solely on the local
apply. -/
def handleCommand (c : Cache) (now : Int) (raw : String) : Cache × Option String :=
  match parseCommand raw with
  | .error e => (c, some ("ERROR: " ++ e.message))
  | .ok msg =>
    if msg.Cmd = "SET" then
      match c.Set msg.Key msg.Value msg.TTL now with
      | (c', none) => (c', some "OK")
      | (c', some e) => (c', some ("ERROR: " ++ e))
    else if msg.Cmd = "GET" then
      match c.Get msg.Key now with
      | (c', .ok v) => (c', some v)
      | (c', .error e) => (c', some ("ERROR: " ++ e))
    else if msg.Cmd = "DEL" then
      match c.Delete msg.Key with
      | (c', none) => (c', some "OK")
      | (c', some e) => (c', some ("ERROR: " ++ e))
    else if msg.Cmd = "HAS" then
      (c, some (if c.Has msg.Key now then "true" else "false"))
    else if msg.Cmd = "KEYS" then
      (c, some (joinComma (c.Keys now)))
    else if msg.Cmd = "METRICS" then
      (c, some (metricsJson c.Metrics))
    else if msg.Cmd = "BATCH" then
      match c.BatchSet msg.Pairs msg.TTL now with
      | (c', none) => (c', some "OK")
      | (c', some e) => (c', some ("ERROR: " ++ e))
    else
      (c, none)

/-- Retry budget of the replication fan-out, set in `server.New`. -/
def maxRetries : Nat := 3

/-- Per-follower attempt loop of `Server.replicateToFollowers`; `ok a` is
the outcome of the `conn.Write` on attempt number `a`, `fuel` counts the
attempts still allowed (`maxRetries - attempt + 1`).  The result is the
number of writes attempted and whether the follower stays registered (on
the last failed attempt the connection is closed and removed). -/
def replLoop (ok : Nat → Bool) : Nat → Nat → Nat × Bool
  | _, 0 => (0, true)
  | attempt, fuel + 1 =>
    if ok attempt then (1, true)
    else if fuel = 0 then (1, false)
    else
      let r := replLoop ok (attempt + 1) fuel
      (r.1 + 1, r.2)

/-- Full attempt sequence for one follower, starting at attempt 1. -/
def replOne (ok : Nat → Bool) : Nat × Bool :=
  replLoop ok 1 maxRetries

/-- Embedding of `Server.replicateToFollowers` on a snapshot of the
follower registry (connections abstracted as identifiers): each follower is
processed independently with its own write outcomes, yielding the attempt
count and whether it stays registered. -/
def replicateToFollowers (followers : List Nat) (ok : Nat → Nat → Bool) :
    List (Nat × Nat × Bool) :=
  followers.map (fun f => (f, replOne (ok f)))

/-- Registry contents after the fan-out: the followers not removed. -/
def retainedFollowers (followers : List Nat) (ok : Nat → Nat → Bool) : List Nat :=
  followers.filter (fun f => (replOne (ok f)).2)

/-- Well-formed wire token: non-empty and free of whitespace, the
round-trip side condition of the protocol spec. -/
def tokOK (s : String) : Prop :=
  s.data ≠ [] ∧ ∀ c ∈ s.data, isSpace c = false

/-- BATCH key side condition: free of whitespace and of the two separator
characters `:` and `,`. -/
def batchKeyOK (s : String) : Prop :=
  ∀ c ∈ s.data, isSpace c = false ∧ c ≠ ':' ∧ c ≠ ','

/-- BATCH value side condition: free of whitespace and of `,` (a value may
contain `:`, since `SplitN(pair, ":", 2)` cuts at the first colon only). -/
def batchValOK (s : String) : Prop :=
  ∀ c ∈ s.data, isSpace c = false ∧ c ≠ ','

/-- TTL range of the Go `time.Duration` (`int64`) type. -/
def int64Range (i : Int) : Prop :=
  -9223372036854775808 ≤ i ∧ i ≤ 9223372036854775807

/-- Transcription of the (amended) failure specification of
`ParseCommand`: no token yields the invalid-command error; a wrong argument
count for a recognized variant (SET takes 3, GET/HAS/DEL take 1,
KEYS/METRICS take 0, BATCH takes at least 2 with extra tokens ignored)
yields the invalid-format error; a BATCH comma chunk without a colon yields
the invalid-pair error; a SET/BATCH ttl token rejected by 64-bit base-10
integer parsing yields the invalid-TTL error; everything else parses. -/
def parseFailureSpec (raw : String) : Option ParseError :=
  match fieldsStr raw with
  | [] => some ParseError.invalidCommand
  | cmd :: args =>
    if cmd = "SET" then
      match args with
      | [_, _, t] =>
        match parseInt64 t with
        | .error e => some (ParseError.invalidTTL e)
        | .ok _ => none
      | _ => some (ParseError.invalidFormat "SET")
    else if cmd = "GET" ∨ cmd = "HAS" ∨ cmd = "DEL" then
      match args with
      | [_] => none
      | _ => some (ParseError.invalidFormat cmd)
    else if cmd = "KEYS" ∨ cmd = "METRICS" then
      match args with
      | [] => none
      | _ => some (ParseError.invalidFormat cmd)
    else if cmd = "BATCH" then
      match args with
      | p :: t :: _ =>
        if (splitComma p).any (fun s => (splitN2 s).isNone) then
          some ParseError.invalidPair
        else
          match parseInt64 t with
          | .error e => some (ParseError.invalidTTL e)
          | .ok _ => none
      | _ => some (ParseError.invalidFormat "BATCH")
    else none

theorem oor_none_left {α : Type} (b : Option α) : oor none b = b := rfl

theorem oor_some_left {α : Type} (v : α) (b : Option α) : oor (some v) b = some v := rfl

theorem oor_none_right {α : Type} (a : Option α) : oor a none = a := by
  cases a <;> rfl

theorem oor_assoc {α : Type} (a b c : Option α) :
    oor (oor a b) c = oor a (oor b c) := by
  cases a <;> rfl

theorem mapGet_mapDel_self {α : Type} (k : String) (l : List (String × α)) :
    mapGet k (mapDel k l) = none := by
  induction l with
  | nil => rfl
  | cons p rest ih =>
    obtain ⟨k', v⟩ := p
    by_cases h : k' = k
    · simp [mapDel, h, ih]
    · simp [mapDel, mapGet, h, ih]

theorem mapGet_mapDel_ne {α : Type} (k q : String) (l : List (String × α))
    (h : k ≠ q) : mapGet q (mapDel k l) = mapGet q l := by
  induction l with
  | nil => rfl
  | cons p rest ih =>
    obtain ⟨k', v⟩ := p
    by_cases hk : k' = k
    · subst hk
      simp [mapDel, mapGet, h, ih]
    · by_cases hq : k' = q
      · simp [mapDel, mapGet, hk, hq, Ne.symm h]
      · simp [mapDel, mapGet, hk, hq, ih]

theorem mapGet_mapSet_self {α : Type} (k : String) (v : α)
    (l : List (String × α)) : mapGet k (mapSet k v l) = some v := by
  simp [mapSet, mapGet]

theorem mapGet_mapSet_ne {α : Type} (k q : String) (v : α)
    (l : List (String × α)) (h : k ≠ q) :
    mapGet q (mapSet k v l) = mapGet q l := by
  simp [mapSet, mapGet, h, mapGet_mapDel_ne k q l h]

theorem mapGet_isSome_iff_mem {α : Type} (k : String) (l : List (String × α)) :
    (mapGet k l).isSome = true ↔ ∃ v, (k, v) ∈ l := by
  induction l with
  | nil => simp [mapGet]
  | cons p rest ih =>
    obtain ⟨k', v⟩ := p
    by_cases h : k' = k
    · subst h
      simp [mapGet]
    · simp only [mapGet, if_neg h, ih]
      constructor
      · rintro ⟨v', hv⟩
        exact ⟨v', List.mem_cons_of_mem _ hv⟩
      · rintro ⟨v', hv⟩
        rcases List.mem_cons.mp hv with heq | hmem
        · cases heq
          exact absurd rfl h
        · exact ⟨v', hmem⟩

theorem set_data (c : Cache) (k v : String) (ttl now : Int) :
    ((c.Set k v ttl now).1).data = mapSet k v c.data := by
  unfold Cache.Set
  split <;> rfl

theorem set_metrics (c : Cache) (k v : String) (ttl now : Int) :
    ((c.Set k v ttl now).1).metrics =
      ⟨c.metrics.Hits, c.metrics.Misses, c.metrics.Sets + 1, c.metrics.Deletes⟩ := by
  unfold Cache.Set
  split <;> rfl

theorem set_expiry_pos (c : Cache) (k v : String) (ttl now : Int) (h : ttl > 0) :
    ((c.Set k v ttl now).1).expiry = mapSet k (now + ttl) c.expiry := by
  unfold Cache.Set
  simp [h]

theorem set_expiry_nonpos (c : Cache) (k v : String) (ttl now : Int) (h : ¬ ttl > 0) :
    ((c.Set k v ttl now).1).expiry = c.expiry := by
  unfold Cache.Set
  simp [h]

theorem get_data_expiry (c : Cache) (k : String) (now : Int) :
    ((c.Get k now).1).data = c.data ∧ ((c.Get k now).1).expiry = c.expiry := by
  unfold Cache.Get
  rcases mapGet k c.data with _ | val <;> simp
  split <;> simp

theorem expired_of_expiry_eq (c c' : Cache) (k : String) (now : Int)
    (h : c'.expiry = c.expiry) : expired c' k now = expired c k now := by
  unfold expired
  rw [h]

theorem set_preserves_inv (c : Cache) (k v : String) (ttl now : Int)
    (hc : ExpiryInvariant c) : ExpiryInvariant ((c.Set k v ttl now).1) := by
  intro q hq
  rw [set_data]
  by_cases hqk : k = q
  · subst hqk
    rw [mapGet_mapSet_self]
    rfl
  · rw [mapGet_mapSet_ne k q v _ hqk]
    apply hc
    by_cases hpos : ttl > 0
    · rw [set_expiry_pos c k v ttl now hpos, mapGet_mapSet_ne k q _ _ hqk] at hq
      exact hq
    · rw [set_expiry_nonpos c k v ttl now hpos] at hq
      exact hq

theorem del_preserves_inv (c : Cache) (k : String)
    (hc : ExpiryInvariant c) : ExpiryInvariant ((c.Delete k).1) := by
  intro q hq
  unfold Cache.Delete at hq ⊢
  simp only at hq ⊢
  by_cases hqk : k = q
  · subst hqk
    rw [mapGet_mapDel_self] at hq
    simp at hq
  · rw [mapGet_mapDel_ne k q _ hqk] at hq
    rw [mapGet_mapDel_ne k q _ hqk]
    exact hc q hq

theorem evict_preserves_inv (c : Cache) (k : String) (now : Int)
    (hc : ExpiryInvariant c) : ExpiryInvariant (c.startEviction k now) := by
  unfold Cache.startEviction
  rcases hexp : mapGet k c.expiry with _ | e
  · exact hc
  · by_cases hlt : now > e
    · simp only [hlt, if_pos]
      intro q hq
      simp only at hq ⊢
      by_cases hqk : k = q
      · subst hqk
        rw [mapGet_mapDel_self] at hq
        simp at hq
      · rw [mapGet_mapDel_ne k q _ hqk] at hq
        rw [mapGet_mapDel_ne k q _ hqk]
        exact hc q hq
    · simp only [hlt, if_neg, if_false]
      exact hc

theorem batchSet_preserves_inv (c : Cache) (pairs : List (String × String))
    (ttl now : Int) (hc : ExpiryInvariant c) :
    ExpiryInvariant ((c.BatchSet pairs ttl now).1) := by
  unfold Cache.BatchSet
  simp only
  induction pairs generalizing c with
  | nil => exact hc
  | cons p rest ih =>
    simp only [List.foldl_cons]
    apply ih
    intro q hq
    by_cases hpos : ttl > 0
    · simp only [hpos, if_pos] at hq ⊢
      by_cases hqk : p.1 = q
      · subst hqk
        rw [mapGet_mapSet_self]
        rfl
      · rw [mapGet_mapSet_ne p.1 q _ _ hqk] at hq
        rw [mapGet_mapSet_ne p.1 q _ _ hqk]
        exact hc q hq
    · simp only [hpos, if_neg, if_false] at hq ⊢
      by_cases hqk : p.1 = q
      · subst hqk
        rw [mapGet_mapSet_self]
        rfl
      · rw [mapGet_mapSet_ne p.1 q _ _ hqk]
        exact hc q hq

theorem applyOp_preserves_inv (now : Int) (op : CacheOp) (c : Cache)
    (hc : ExpiryInvariant c) : ExpiryInvariant (applyOp now op c) := by
  cases op with
  | set k v ttl => exact set_preserves_inv c k v ttl now hc
  | batchSet ps ttl => exact batchSet_preserves_inv c ps ttl now hc
  | get k =>
    intro q hq
    have h := get_data_expiry c k now
    simp only [applyOp] at hq ⊢
    rw [h.2] at hq
    rw [h.1]
    exact hc q hq
  | has k => exact hc
  | del k => exact del_preserves_inv c k hc
  | keys => exact hc
  | metrics => exact hc
  | evict k => exact evict_preserves_inv c k now hc

theorem runOps_preserves_inv (ops : List (Int × CacheOp)) (c : Cache)
    (hc : ExpiryInvariant c) : ExpiryInvariant (runOps ops c) := by
  induction ops generalizing c with
  | nil => exact hc
  | cons p rest ih =>
    simp only [runOps, List.foldl_cons]
    exact ih _ (applyOp_preserves_inv p.1 p.2 _ hc)

/-- C5: on every reachable cache state — any finite trace of atomic engine
actions (`Set`, `BatchSet`, `Get`, `Has`, `Delete`, `Keys`, `Metrics`,
active eviction) executed at arbitrary times from a fresh cache — every key
present in the expiry map is also present in the data map: expiry is never
recorded for an absent key, and deletion/eviction clear both maps
together. -/
theorem c5_expiry_subset_data (ops : List (Int × CacheOp)) :
    ExpiryInvariant (runOps ops NewCache) := by
  apply runOps_preserves_inv
  intro k hk
  simp [NewCache, mapGet] at hk

/-- Witness for C5 at a concrete trace: after `Set "a" "v" 5` at time 0 the
key `"a"` has an expiry record, so the invariant puts it in the data map. -/
theorem c5_witness :
    (mapGet "a" (runOps [(0, CacheOp.set "a" "v" 5)] NewCache).data).isSome = true :=
  c5_expiry_subset_data [(0, CacheOp.set "a" "v" 5)] "a" (by decide)

/-- C8: `Delete` never fails (the Go method returns `nil`), removes the
key's value and expiry record, leaves every other key's value and expiry
untouched, and increments `Deletes` by exactly one whether or not the key
was present, leaving the other three counters unchanged. -/
theorem c8_delete_idempotent (c : Cache) (key : String) :
    (c.Delete key).2 = none ∧
    mapGet key ((c.Delete key).1).data = none ∧
    mapGet key ((c.Delete key).1).expiry = none ∧
    (∀ q, q ≠ key →
      mapGet q ((c.Delete key).1).data = mapGet q c.data ∧
      mapGet q ((c.Delete key).1).expiry = mapGet q c.expiry) ∧
    ((c.Delete key).1).metrics.Deletes = c.metrics.Deletes + 1 ∧
    ((c.Delete key).1).metrics.Hits = c.metrics.Hits ∧
    ((c.Delete key).1).metrics.Misses = c.metrics.Misses ∧
    ((c.Delete key).1).metrics.Sets = c.metrics.Sets := by
  refine ⟨rfl, ?_, ?_, ?_, rfl, rfl, rfl, rfl⟩
  · exact mapGet_mapDel_self key c.data
  · exact mapGet_mapDel_self key c.expiry
  · intro q hq
    exact ⟨mapGet_mapDel_ne key q c.data (fun h => hq h.symm),
           mapGet_mapDel_ne key q c.expiry (fun h => hq h.symm)⟩

/-- Witness for C8: deleting the absent key `"a"` from a cache holding only
`"b"` keeps `"b"` intact, and the call reports no error. -/
theorem c8_witness :
    (Cache.Delete ⟨[("b", "2")], [], ⟨0, 0, 0, 0⟩⟩ "a").2 = none ∧
    mapGet "b" ((Cache.Delete ⟨[("b", "2")], [], ⟨0, 0, 0, 0⟩⟩ "a").1).data = some "2" := by
  have h := c8_delete_idempotent ⟨[("b", "2")], [], ⟨0, 0, 0, 0⟩⟩ "a"
  refine ⟨h.1, ?_⟩
  rw [(h.2.2.2.1 "b" (by decide)).1]
  rfl

theorem get_hit_metrics (c : Cache) (k : String) (now : Int) (v : String)
    (hv : mapGet k c.data = some v) (hexp : expired c k now = false) :
    ((c.Get k now).1).metrics =
      ⟨c.metrics.Hits + 1, c.metrics.Misses, c.metrics.Sets, c.metrics.Deletes⟩ := by
  simp [Cache.Get, hv, hexp]

theorem get_miss_metrics (c : Cache) (k : String) (now : Int)
    (hv : mapGet k c.data = none) :
    ((c.Get k now).1).metrics =
      ⟨c.metrics.Hits, c.metrics.Misses + 1, c.metrics.Sets, c.metrics.Deletes⟩ := by
  simp [Cache.Get, hv]

/-- C1 counterexample: `Set "k" "v1"` with TTL 10 at time 0 records expiry
instant 10; a later `Set "k" "v2"` with TTL 0 at time 1 does not clear that
record, so at time 11 the key has expired — `Get` fails, `Has` is false and
`Keys` omits it — refuting the claim that after a `Set` with `ttl <= 0` the
key never expires regardless of an earlier positive-TTL expiry record. -/
theorem c1_counterexample :
    ((((NewCache.Set "k" "v1" 10 0).1.Set "k" "v2" 0 1).1.Get "k" 11).2 =
      Except.error "key (k) has expired") ∧
    ((NewCache.Set "k" "v1" 10 0).1.Set "k" "v2" 0 1).1.Has "k" 11 = false ∧
    ((NewCache.Set "k" "v1" 10 0).1.Set "k" "v2" 0 1).1.Keys 11 = [] :=
  ⟨rfl, rfl, rfl⟩

/-- C1 amended: after `Set(key, value, ttl)` with `ttl <= 0` on a state
whose expiry map holds no record for the key, the key never expires: at
every time `Get` returns the value, `Has` is true, `Keys` includes the key,
and a stale eviction timer firing for the key is a no-op.  (If an expiry
record from an earlier positive-TTL `Set` is still present, it is not
cleared and the key still expires at that stale instant, as the
counterexample shows.) -/
theorem c1_nonpositive_ttl_no_expiry (c : Cache) (key value : String)
    (ttl now : Int) (httl : ttl ≤ 0) (hexp : mapGet key c.expiry = none)
    (t : Int) :
    (((c.Set key value ttl now).1).Get key t).2 = Except.ok value ∧
    ((c.Set key value ttl now).1).Has key t = true ∧
    key ∈ ((c.Set key value ttl now).1).Keys t ∧
    ((c.Set key value ttl now).1).startEviction key t = (c.Set key value ttl now).1 := by
  have hpos : ¬ ttl > 0 := by omega
  have hdata : ((c.Set key value ttl now).1).data = mapSet key value c.data :=
    set_data c key value ttl now
  have hexp' : mapGet key ((c.Set key value ttl now).1).expiry = none := by
    rw [set_expiry_nonpos c key value ttl now hpos]
    exact hexp
  have hexpired : expired (c.Set key value ttl now).1 key t = false := by
    unfold expired
    rw [hexp']
  have hget : mapGet key ((c.Set key value ttl now).1).data = some value := by
    rw [hdata]
    exact mapGet_mapSet_self key value c.data
  refine ⟨?_, ?_, ?_, ?_⟩
  · simp [Cache.Get, hget, hexpired]
  · simp [Cache.Has, hget, hexpired]
  · unfold Cache.Keys
    apply List.mem_map.mpr
    refine ⟨(key, value), List.mem_filter.mpr ⟨?_, ?_⟩, rfl⟩
    · rw [hdata]
      exact List.mem_cons_self _ _
    · simp [hexpired]
  · simp [Cache.startEviction, hexp']

/-- Witness for the amended C1 on a fresh cache: `Set "k" "v" 0` at time 0,
read back at time 5. -/
theorem c1_witness :
    (((NewCache.Set "k" "v" 0 0).1).Get "k" 5).2 = Except.ok "v" ∧
    ((NewCache.Set "k" "v" 0 0).1).Has "k" 5 = true ∧
    "k" ∈ ((NewCache.Set "k" "v" 0 0).1).Keys 5 ∧
    ((NewCache.Set "k" "v" 0 0).1).startEviction "k" 5 = (NewCache.Set "k" "v" 0 0).1 :=
  c1_nonpositive_ttl_no_expiry NewCache "k" "v" 0 0 (by decide) rfl 5

/-- C2 counterexample: an entry whose recorded expiry instant is 5 is still
valid at time 5 exactly — `Get` succeeds, `Has` is true, `Keys` lists it —
refuting the claim that at the exact expiry instant the entry is already
invalid (the code uses the strict `time.Now().After(exp)`). -/
theorem c2_counterexample :
    ((Cache.Get ⟨[("k", "v")], [("k", 5)], ⟨0, 0, 0, 0⟩⟩ "k" 5).2 = Except.ok "v") ∧
    (Cache.Has ⟨[("k", "v")], [("k", 5)], ⟨0, 0, 0, 0⟩⟩ "k" 5 = true) ∧
    ("k" ∈ Cache.Keys ⟨[("k", "v")], [("k", 5)], ⟨0, 0, 0, 0⟩⟩ 5) :=
  ⟨rfl, rfl, by decide⟩

/-- C2 amended: an entry with a recorded expiry instant is valid iff the
current time is at most that instant (so at the exact instant it is still
valid); an entry with no record never expires; and this validity rule is
applied uniformly by `Get` (success iff present and valid), `Has`, and
`Keys` (membership iff present and valid). -/
theorem c2_validity_rule (c : Cache) (key : String) (now : Int) :
    (expired c key now = false ↔ ∀ exp, mapGet key c.expiry = some exp → now ≤ exp) ∧
    ((∃ v, (c.Get key now).2 = Except.ok v) ↔
      ((mapGet key c.data).isSome = true ∧ expired c key now = false)) ∧
    (c.Has key now = ((mapGet key c.data).isSome && !(expired c key now))) ∧
    (key ∈ c.Keys now ↔
      ((mapGet key c.data).isSome = true ∧ expired c key now = false)) := by
  refine ⟨?_, ?_, ?_, ?_⟩
  · rcases hexp : mapGet key c.expiry with _ | e
    · simp [expired, hexp]
    · simp only [expired, hexp, decide_eq_false_iff_not, not_lt]
      constructor
      · intro hle exp heq
        cases heq
        exact hle
      · intro hall
        exact hall e rfl
  · rcases hd : mapGet key c.data with _ | val
    · simp [Cache.Get, hd]
    · rcases hexp : expired c key now
      · simp [Cache.Get, hd, hexp]
      · simp [Cache.Get, hd, hexp]
  · rcases hd : mapGet key c.data with _ | val
    · simp [Cache.Has, hd]
    · simp [Cache.Has, hd]
  · unfold Cache.Keys
    simp only [List.mem_map, List.mem_filter]
    constructor
    · rintro ⟨⟨pk, pv⟩, ⟨hmem, hpred⟩, hfst⟩
      simp only at hfst
      subst hfst
      simp only [Bool.not_eq_true'] at hpred
      exact ⟨(mapGet_isSome_iff_mem pk c.data).mpr ⟨pv, hmem⟩, hpred⟩
    · rintro ⟨hsome, hexp⟩
      obtain ⟨v, hmem⟩ := (mapGet_isSome_iff_mem key c.data).mp hsome
      exact ⟨(key, v), ⟨hmem, by simp [hexp]⟩, rfl⟩

/-- Witness for the amended C2 at the exact expiry instant: with expiry
recorded at 5 the entry is listed by `Keys` at time 5. -/
theorem c2_witness :
    "k" ∈ Cache.Keys ⟨[("k", "v")], [("k", 5)], ⟨0, 0, 1, 0⟩⟩ 5 :=
  (c2_validity_rule ⟨[("k", "v")], [("k", 5)], ⟨0, 0, 1, 0⟩⟩ "k" 5).2.2.2.mpr
    (by constructor <;> decide)

/-- C7: on a fresh engine, two `Set` calls, one `Get` of a key present and
not expired at read time, and one `Get` of an absent key leave the counters
at `{Hits: 1, Misses: 1, Sets: 2, Deletes: 0}`, and `Metrics` reports
exactly this snapshot.  (`Metrics` builds a fresh record, a field-by-field
copy of the counters; in this value-level embedding a returned snapshot is
immutable by construction, matching the Go copy semantics.) -/
theorem c7_metrics_snapshot (k1 v1 k2 v2 kh km : String)
    (ttl1 ttl2 t1 t2 t3 t4 : Int) (c2 c3 c4 : Cache)
    (hc2 : c2 = ((NewCache.Set k1 v1 ttl1 t1).1.Set k2 v2 ttl2 t2).1)
    (hc3 : c3 = (c2.Get kh t3).1)
    (hc4 : c4 = (c3.Get km t4).1)
    (hhit : (mapGet kh c2.data).isSome = true)
    (hvalid : expired c2 kh t3 = false)
    (hmiss : mapGet km c3.data = none) :
    c4.Metrics = ⟨1, 1, 2, 0⟩ := by
  obtain ⟨v, hv⟩ := Option.isSome_iff_exists.mp hhit
  have h3 : c3.metrics =
      ⟨c2.metrics.Hits + 1, c2.metrics.Misses, c2.metrics.Sets, c2.metrics.Deletes⟩ := by
    rw [hc3]
    exact get_hit_metrics c2 kh t3 v hv hvalid
  have h4 : c4.metrics =
      ⟨c3.metrics.Hits, c3.metrics.Misses + 1, c3.metrics.Sets, c3.metrics.Deletes⟩ := by
    rw [hc4]
    exact get_miss_metrics c3 km t4 hmiss
  have h2 : c2.metrics = ⟨0, 0, 2, 0⟩ := by
    rw [hc2, set_metrics, set_metrics]
    rfl
  unfold Cache.Metrics
  rw [h4, h3, h2]

/-- Witness for C7: the concrete scenario `SET foo bar 0`, `SET baz qux 0`,
hit `GET foo`, miss `GET nope` on a fresh engine at time 0. -/
theorem c7_witness :
    Cache.Metrics (((((NewCache.Set "foo" "bar" 0 0).1.Set "baz" "qux" 0 0).1.Get
      "foo" 0).1.Get "nope" 0).1) = ⟨1, 1, 2, 0⟩ :=
  c7_metrics_snapshot "foo" "bar" "baz" "qux" "foo" "nope" 0 0 0 0 0 0
    _ _ _ rfl rfl rfl (by decide) (by decide) (by decide)

/-- C6: in the replication fan-out over a snapshot of the follower
registry, with `ok f a` the outcome of the write to follower `f` on attempt
`a`: every follower is written to at most `maxRetries = 3` times; a
follower whose first write succeeds gets exactly one attempt and stays
registered; a follower whose three attempts all fail is dropped (its
connection closed and removed from the registry); and every follower in the
snapshot is processed with its own outcomes, regardless of the failures of
the others. -/
theorem c6_replication_fanout (followers : List Nat) (ok : Nat → Nat → Bool)
    (f : Nat) (hf : f ∈ followers) :
    (replOne (ok f)).1 ≤ 3 ∧
    (ok f 1 = true →
      (replOne (ok f)).1 = 1 ∧ f ∈ retainedFollowers followers ok) ∧
    ((ok f 1 = false ∧ ok f 2 = false ∧ ok f 3 = false) →
      ((replOne (ok f)).2 = false ∧ f ∉ retainedFollowers followers ok)) ∧
    (f, replOne (ok f)) ∈ replicateToFollowers followers ok := by
  refine ⟨?_, ?_, ?_, List.mem_map.mpr ⟨f, hf, rfl⟩⟩
  · rcases h1 : ok f 1 <;> rcases h2 : ok f 2 <;> rcases h3 : ok f 3 <;>
      simp [replOne, replLoop, maxRetries, h1, h2, h3]
  · intro h1
    refine ⟨by simp [replOne, replLoop, maxRetries, h1], ?_⟩
    exact List.mem_filter.mpr ⟨hf, by simp [replOne, replLoop, maxRetries, h1]⟩
  · rintro ⟨h1, h2, h3⟩
    have hdrop : (replOne (ok f)).2 = false := by
      simp [replOne, replLoop, maxRetries, h1, h2, h3]
    refine ⟨hdrop, fun hmem => ?_⟩
    have hkeep := (List.mem_filter.mp hmem).2
    rw [hdrop] at hkeep
    exact Bool.false_ne_true hkeep

/-- Witness for C6: a single follower whose first write succeeds gets one
attempt and stays in the registry. -/
theorem c6_witness :
    (replOne ((fun _ _ => true) 7)).1 = 1 ∧
    7 ∈ retainedFollowers [7] (fun _ _ => true) :=
  (c6_replication_fanout [7] (fun _ _ => true) 7 (by decide)).2.1 rfl

/-- C10: a payload whose first token is none of the seven known commands
parses successfully into a message carrying that token as its command with
zero-valued payload fields, and the dispatcher writes no reply at all for
it (the Go switch falls through with a nil error). -/
theorem c10_unknown_command (c : Cache) (now : Int) (raw cmd : String)
    (args : List String) (hT : fieldsStr raw = cmd :: args)
    (h1 : cmd ≠ "SET") (h2 : cmd ≠ "GET") (h3 : cmd ≠ "DEL") (h4 : cmd ≠ "HAS")
    (h5 : cmd ≠ "KEYS") (h6 : cmd ≠ "METRICS") (h7 : cmd ≠ "BATCH") :
    parseCommand raw = Except.ok ⟨cmd, "", "", 0, []⟩ ∧
    (handleCommand c now raw).2 = none := by
  have hp : parseCommand raw = Except.ok ⟨cmd, "", "", 0, []⟩ := by
    unfold parseCommand
    rw [hT]
    simp [h1, h2, h3, h4, h5, h6, h7]
  refine ⟨hp, ?_⟩
  simp [handleCommand, hp, h1, h2, h3, h4, h5, h6, h7]

/-- Witness for C10 on the payload `"PING x"`. -/
theorem c10_witness :
    parseCommand "PING x" = Except.ok ⟨"PING", "", "", 0, []⟩ ∧
    (handleCommand NewCache 0 "PING x").2 = none :=
  c10_unknown_command NewCache 0 "PING x" "PING" ["x"] rfl
    (by decide) (by decide) (by decide) (by decide)
    (by decide) (by decide) (by decide)

/-- C4 counterexample: `"BATCH a 0"` carries the argument count the claim
requires for BATCH (2) and a valid base-10 ttl token, yet `ParseCommand`
fails (with the invalid-pair error the claim does not list); and
`"BATCH a:1 0 junk"` has a third argument, violating the claimed arity, yet
parses successfully — so the claim's exhaustive failure enumeration is
wrong on both sides for BATCH. -/
theorem c4_counterexample :
    parseCommand "BATCH a 0" = Except.error ParseError.invalidPair ∧
    (fieldsStr "BATCH a 0").length = 3 ∧
    parseInt64 "0" = Except.ok 0 ∧
    parseCommand "BATCH a:1 0 junk" =
      Except.ok ⟨"BATCH", "", "", 0, [("a", "1")]⟩ :=
  ⟨rfl, rfl, rfl, rfl⟩

theorem parsePairs_none_iff (l : List String) (acc : List (String × String)) :
    parsePairs l acc = none ↔ l.any (fun s => (splitN2 s).isNone) = true := by
  induction l generalizing acc with
  | nil => simp [parsePairs]
  | cons p rest ih =>
    rcases hs : splitN2 p with _ | kv
    · simp [parsePairs, hs]
    · simp [parsePairs, hs, ih]

theorem parseFailureSpec_eq (raw : String) :
    parseFailureSpec raw =
      (match parseCommand raw with
        | .error e => some e
        | .ok _ => none) := by
  unfold parseCommand parseFailureSpec
  rcases hT : fieldsStr raw with _ | ⟨cmd, args⟩
  · rfl
  · by_cases h1 : cmd = "SET"
    · simp only [h1, if_pos]
      rcases args with _ | ⟨a1, _ | ⟨a2, _ | ⟨a3, _ | ⟨a4, rest⟩⟩⟩⟩ <;>
        first
          | rfl
          | (rcases hp : parseInt64 a3 with e | v <;> simp [hp])
    · by_cases h2 : cmd = "GET" ∨ cmd = "HAS" ∨ cmd = "DEL"
      · simp only [h1, if_neg, h2, if_pos]
        rcases args with _ | ⟨a1, _ | ⟨a2, rest⟩⟩ <;> rfl
      · by_cases h3 : cmd = "KEYS" ∨ cmd = "METRICS"
        · simp only [h1, if_neg, h2, h3, if_pos]
          rcases args with _ | ⟨a1, rest⟩ <;> rfl
        · by_cases h4 : cmd = "BATCH"
          · simp only [h1, h2, h3, h4, if_neg, if_pos]
            rcases args with _ | ⟨a1, _ | ⟨a2, rest⟩⟩
            · rfl
            · rfl
            · rcases hpp : parsePairs (splitComma a1) [] with _ | prs
              · have hany := (parsePairs_none_iff (splitComma a1) []).mp hpp
                simp [hpp, hany]
              · have hany : (splitComma a1).any (fun s => (splitN2 s).isNone) = false := by
                  rcases h : (splitComma a1).any (fun s => (splitN2 s).isNone)
                  · rfl
                  · rw [(parsePairs_none_iff (splitComma a1) []).mpr h] at hpp
                    cases hpp
                rcases hp : parseInt64 a2 with e | v <;> simp [hpp, hany, hp]
          · simp [h1, h2, h3, h4]

/-- C4 amended: `ParseCommand` fails exactly as `parseFailureSpec`
describes — invalid-command on an empty token list; invalid-format when a
recognized variant's argument count does not match (SET takes 3, GET/HAS/DEL
take 1, KEYS/METRICS take 0, BATCH takes at least 2 and ignores extras);
invalid-pair when a BATCH comma chunk has no colon; invalid-TTL when the
SET/BATCH ttl token is rejected by 64-bit base-10 parsing; otherwise it
succeeds. -/
theorem c4_parse_failure_exact (raw : String) (e : ParseError) :
    parseCommand raw = Except.error e ↔ parseFailureSpec raw = some e := by
  rw [parseFailureSpec_eq]
  rcases hp : parseCommand raw with e' | m <;> simp [hp]

/-- Witness for the amended C4: the wrong-arity payload `"KEYS x"` fails
with exactly the invalid-format error. -/
theorem c4_witness :
    parseCommand "KEYS x" = Except.error (ParseError.invalidFormat "KEYS") :=
  (c4_parse_failure_exact "KEYS x" (ParseError.invalidFormat "KEYS")).mpr rfl

theorem set_snd (c : Cache) (k v : String) (ttl now : Int) :
    (c.Set k v ttl now).2 = none := by
  unfold Cache.Set
  split <;> rfl

/-- C9: replies of the dispatcher for parsed commands — `OK` for SET, DEL
and BATCH (whose cache operations never fail), the raw value bytes for a
successful GET, `true`/`false` for HAS, and `ERROR: ` followed by the error
message whenever parsing fails or the handler returns an error (as a GET of
an absent or expired key does). -/
theorem c9_reply_contract (c : Cache) (now : Int) (raw : String) :
    (∀ e, parseCommand raw = Except.error e →
      (handleCommand c now raw).2 = some ("ERROR: " ++ e.message)) ∧
    (∀ msg, parseCommand raw = Except.ok msg →
      ((msg.Cmd = "SET" ∨ msg.Cmd = "DEL" ∨ msg.Cmd = "BATCH") →
        (handleCommand c now raw).2 = some "OK") ∧
      (msg.Cmd = "GET" →
        (handleCommand c now raw).2 = some
          (match (c.Get msg.Key now).2 with
            | .ok v => v
            | .error e => "ERROR: " ++ e)) ∧
      (msg.Cmd = "HAS" →
        (handleCommand c now raw).2 =
          some (if c.Has msg.Key now then "true" else "false"))) := by
  constructor
  · intro e he
    simp [handleCommand, he]
  · intro msg hm
    refine ⟨?_, ?_, ?_⟩
    · rintro (h | h | h)
      · rcases hs : c.Set msg.Key msg.Value msg.TTL now with ⟨c', r⟩
        have hr : r = none := by
          have hn := set_snd c msg.Key msg.Value msg.TTL now
          rw [hs] at hn
          exact hn
        subst hr
        simp [handleCommand, hm, h, hs]
      · simp [handleCommand, hm, h, Cache.Delete]
      · simp [handleCommand, hm, h, Cache.BatchSet]
    · intro h
      rcases hg : c.Get msg.Key now with ⟨c', r⟩
      rcases r with e | v <;> simp [handleCommand, hm, h, hg]
    · intro h
      simp [handleCommand, hm, h]

/-- Witness for C9: `SET foo bar 0` on a fresh cache is answered `OK`. -/
theorem c9_witness :
    (handleCommand NewCache 0 "SET foo bar 0").2 = some "OK" :=
  ((c9_reply_contract NewCache 0 "SET foo bar 0").2 ⟨"SET", "foo", "bar", 0, []⟩
    rfl).1 (Or.inl rfl)

theorem asString_data (s : String) : s.data.asString = s := by
  cases s
  rfl

theorem isSpace_space : isSpace ' ' = true := rfl

theorem fieldsAux_word (w r acc : List Char)
    (hw : ∀ c ∈ w, isSpace c = false) (hne : acc.reverse ++ w ≠ []) :
    fieldsAux (w ++ ' ' :: r) acc = (acc.reverse ++ w) :: fieldsAux r [] := by
  induction w generalizing acc with
  | nil =>
    rcases acc with _ | ⟨a, as⟩
    · simp at hne
    · simp [fieldsAux, isSpace_space]
  | cons ch w' ih =>
    have hch : isSpace ch = false := hw ch (List.mem_cons_self _ _)
    have step : fieldsAux ((ch :: w') ++ ' ' :: r) acc =
        fieldsAux (w' ++ ' ' :: r) (ch :: acc) := by
      simp [fieldsAux, hch]
    rw [step, ih (ch :: acc) (fun c hc => hw c (List.mem_cons_of_mem _ hc))
      (by simp)]
    simp

theorem fieldsAux_last (w acc : List Char)
    (hw : ∀ c ∈ w, isSpace c = false) (hne : acc.reverse ++ w ≠ []) :
    fieldsAux w acc = [acc.reverse ++ w] := by
  induction w generalizing acc with
  | nil =>
    rcases acc with _ | ⟨a, as⟩
    · simp at hne
    · simp [fieldsAux, isSpace_space]
  | cons ch w' ih =>
    have hch : isSpace ch = false := hw ch (List.mem_cons_self _ _)
    have step : fieldsAux (ch :: w') acc = fieldsAux w' (ch :: acc) := by
      simp [fieldsAux, hch]
    rw [step, ih (ch :: acc) (fun c hc => hw c (List.mem_cons_of_mem _ hc))
      (by simp)]
    simp

theorem fieldsCore_word (w r : List Char) (hne : w ≠ [])
    (hw : ∀ c ∈ w, isSpace c = false) :
    fieldsAux (w ++ ' ' :: r) [] = w :: fieldsAux r [] := by
  have h := fieldsAux_word w r [] hw (by simpa)
  simpa using h

theorem fieldsCore_last (w : List Char) (hne : w ≠ [])
    (hw : ∀ c ∈ w, isSpace c = false) :
    fieldsAux w [] = [w] := by
  have h := fieldsAux_last w [] hw (by simpa)
  simpa using h

theorem fieldsStr_two (s w1 w2 : String)
    (hs : s.data = w1.data ++ ' ' :: w2.data)
    (h1 : tokOK w1) (h2 : tokOK w2) :
    fieldsStr s = [w1, w2] := by
  unfold fieldsStr
  rw [hs, fieldsCore_word w1.data _ h1.1 h1.2, fieldsCore_last w2.data h2.1 h2.2]
  simp [asString_data]

theorem fieldsStr_three (s w1 w2 w3 : String)
    (hs : s.data = w1.data ++ ' ' :: (w2.data ++ ' ' :: w3.data))
    (h1 : tokOK w1) (h2 : tokOK w2) (h3 : tokOK w3) :
    fieldsStr s = [w1, w2, w3] := by
  unfold fieldsStr
  rw [hs, fieldsCore_word w1.data _ h1.1 h1.2,
    fieldsCore_word w2.data _ h2.1 h2.2, fieldsCore_last w3.data h3.1 h3.2]
  simp [asString_data]

theorem fieldsStr_four (s w1 w2 w3 w4 : String)
    (hs : s.data = w1.data ++ ' ' :: (w2.data ++ ' ' :: (w3.data ++ ' ' :: w4.data)))
    (h1 : tokOK w1) (h2 : tokOK w2) (h3 : tokOK w3) (h4 : tokOK w4) :
    fieldsStr s = [w1, w2, w3, w4] := by
  unfold fieldsStr
  rw [hs, fieldsCore_word w1.data _ h1.1 h1.2,
    fieldsCore_word w2.data _ h2.1 h2.2, fieldsCore_word w3.data _ h3.1 h3.2,
    fieldsCore_last w4.data h4.1 h4.2]
  simp [asString_data]

theorem digitChar_props (d : Nat) (hd : d < 10) :
    (digitChar d).toNat = 48 + d ∧ Char.isDigit (digitChar d) = true ∧
    isSpace (digitChar d) = false := by
  interval_cases d <;> exact ⟨rfl, rfl, rfl⟩

theorem digitsVal_snoc (l : List Char) (c : Char) :
    digitsVal (l ++ [c]) = (digitsVal l) * 10 + (c.toNat - 48) := by
  simp [digitsVal, List.foldl_append]

theorem natDigitsAux_spec (fuel : Nat) :
    ∀ n, n < 10 ^ fuel → 0 < fuel →
    natDigitsAux fuel n ≠ [] ∧
    (∀ c ∈ natDigitsAux fuel n, Char.isDigit c = true ∧ isSpace c = false) ∧
    digitsVal (natDigitsAux fuel n) = n := by
  induction fuel with
  | zero => intro n _ h0; cases h0
  | succ f ih =>
    intro n hn _
    by_cases hsmall : n < 10
    · have hp := digitChar_props n hsmall
      refine ⟨by simp [natDigitsAux, hsmall], ?_, ?_⟩
      · intro c hc
        simp [natDigitsAux, hsmall] at hc
        subst hc
        exact ⟨hp.2.1, hp.2.2⟩
      · simp [natDigitsAux, hsmall, digitsVal, hp.1]
    · have hge : 10 ≤ n := Nat.not_lt.mp hsmall
      have hf0 : 0 < f := by
        rcases Nat.eq_zero_or_pos f with h | h
        · subst h
          simp at hn
          omega
        · exact h
      have hdiv : n / 10 < 10 ^ f := by
        rw [Nat.div_lt_iff_lt_mul (by norm_num)]
        calc n < 10 ^ (f + 1) := hn
        _ = 10 ^ f * 10 := by rw [Nat.pow_succ]
      obtain ⟨hne, hall, hval⟩ := ih (n / 10) hdiv hf0
      have hm := digitChar_props (n % 10) (Nat.mod_lt n (by norm_num))
      have hstep : natDigitsAux (f + 1) n =
          natDigitsAux f (n / 10) ++ [digitChar (n % 10)] := by
        simp [natDigitsAux, hsmall]
      refine ⟨?_, ?_, ?_⟩
      · rw [hstep]
        simp
      · intro c hc
        rw [hstep] at hc
        rcases List.mem_append.mp hc with h | h
        · exact hall c h
        · simp at h
          subst h
          exact ⟨hm.2.1, hm.2.2⟩
      · rw [hstep, digitsVal_snoc, hval, hm.1]
        omega

theorem natDigits_spec (n : Nat) :
    natDigits n ≠ [] ∧
    (∀ c ∈ natDigits n, Char.isDigit c = true ∧ isSpace c = false) ∧
    digitsVal (natDigits n) = n := by
  have h1 : n < 10 ^ (n + 1) := by
    have h := Nat.lt_pow_self (show 1 < 10 by norm_num) n
    have h2 : 10 ^ n ≤ 10 ^ (n + 1) :=
      Nat.pow_le_pow_right (by norm_num) (Nat.le_succ n)
    omega
  exact natDigitsAux_spec (n + 1) n h1 (Nat.succ_pos n)

theorem natToString_data (n : Nat) : (natToString n).data = natDigits n := by
  unfold natToString
  rcases h : natDigits n with _ | ⟨c, cs⟩ <;> simp [List.asString, h]

theorem intToString_tokOK (i : Int) : tokOK (intToString i) := by
  unfold intToString
  obtain ⟨hne, hall, _⟩ := natDigits_spec i.toNat
  obtain ⟨hneN, hallN, _⟩ := natDigits_spec (-i).toNat
  by_cases h : i < 0
  · simp only [h, if_pos]
    constructor
    · simp [String.data_append, natToString_data]
    · intro c hc
      simp only [String.data_append, natToString_data] at hc
      rcases List.mem_append.mp hc with h1 | h1
      · simp at h1
        subst h1
        rfl
      · exact (hallN c h1).2
  · simp only [h, if_neg, if_false]
    refine ⟨by simp [natToString_data, hne], ?_⟩
    intro c hc
    rw [natToString_data] at hc
    exact (hall c hc).2

theorem intToString_parse (i : Int) (h : int64Range i) :
    parseInt64 (intToString i) = Except.ok i := by
  obtain ⟨hlo, hhi⟩ := h
  by_cases hneg : i < 0
  · obtain ⟨hne, hall, hval⟩ := natDigits_spec (-i).toNat
    have hdata : (intToString i).data = '-' :: natDigits (-i).toNat := by
      simp [intToString, hneg, String.data_append, natToString_data]
    have hss : splitSign (intToString i).data = (true, natDigits (-i).toNat) := by
      rw [hdata]
      simp [splitSign]
    have hia : (natDigits (-i).toNat).all Char.isDigit = true :=
      List.all_eq_true.mpr (fun c hc => (hall c hc).1)
    have hv : ((-i).toNat : Int) = -i := Int.toNat_of_nonneg (by omega)
    simp only [parseInt64, hss, List.isEmpty_eq_true, hne, hia, Bool.not_true,
      Bool.or_false, if_false, hval, hv]
    have hsimp : (if True then - -i else -i) = i := by simp
    rw [hsimp]
    have hrange : ¬ (i < -9223372036854775808 ∨ (9223372036854775807 : Int) < i) := by
      omega
    rw [if_neg hrange]
  · obtain ⟨hne, hall, hval⟩ := natDigits_spec i.toNat
    have hdata : (intToString i).data = natDigits i.toNat := by
      simp [intToString, hneg, natToString_data]
    obtain ⟨c, cs, hcl⟩ := List.exists_cons_of_ne_nil hne
    have hc : Char.isDigit c = true := (hall c (by rw [hcl]; exact List.mem_cons_self _ _)).1
    have hcp : c ≠ '+' := by
      intro he
      rw [he] at hc
      exact absurd hc (by decide)
    have hcm : c ≠ '-' := by
      intro he
      rw [he] at hc
      exact absurd hc (by decide)
    have hss : splitSign (intToString i).data = (false, natDigits i.toNat) := by
      rw [hdata, hcl]
      simp [splitSign, hcp, hcm]
    have hia : (natDigits i.toNat).all Char.isDigit = true :=
      List.all_eq_true.mpr (fun c hc => (hall c hc).1)
    have hv : (i.toNat : Int) = i := Int.toNat_of_nonneg (by omega)
    simp only [parseInt64, hss, List.isEmpty_eq_true, hne, hia, Bool.not_true,
      Bool.or_false, if_false, hval, hv]
    have hsimp : (if false = true then -i else i) = i := by simp
    rw [hsimp]
    have hrange : ¬ (i < -9223372036854775808 ∨ (9223372036854775807 : Int) < i) := by
      omega
    rw [if_neg hrange]

theorem splitOnChar_no_sep (sep : Char) (l : List Char)
    (h : ∀ c ∈ l, c ≠ sep) : splitOnChar sep l = [l] := by
  induction l with
  | nil => rfl
  | cons c rest ih =>
    have hc : c ≠ sep := h c (List.mem_cons_self _ _)
    have hr := ih (fun c' hc' => h c' (List.mem_cons_of_mem _ hc'))
    simp [splitOnChar, hc, hr]

theorem splitOnChar_append (sep : Char) (w r : List Char)
    (hw : ∀ c ∈ w, c ≠ sep) :
    splitOnChar sep (w ++ sep :: r) = w :: splitOnChar sep r := by
  induction w with
  | nil => simp [splitOnChar]
  | cons c w' ih =>
    have hc : c ≠ sep := hw c (List.mem_cons_self _ _)
    have hr := ih (fun c' hc' => hw c' (List.mem_cons_of_mem _ hc'))
    simp [splitOnChar, hc, hr]

theorem splitFirst_encode (k v : List Char) (hk : ∀ c ∈ k, c ≠ ':') :
    splitFirst ':' (k ++ ':' :: v) = some (k, v) := by
  induction k with
  | nil => simp [splitFirst]
  | cons c k' ih =>
    have hc : c ≠ ':' := hk c (List.mem_cons_self _ _)
    have hr := ih (fun c' hc' => hk c' (List.mem_cons_of_mem _ hc'))
    simp [splitFirst, hc, hr]

theorem joinComma_cons (s t : String) (ts : List String) :
    (joinComma (s :: t :: ts)).data = s.data ++ ',' :: (joinComma (t :: ts)).data := by
  show ((s ++ "," ++ joinComma (t :: ts))).data = _
  simp [String.data_append]

theorem splitComma_joinComma (ss : List String) (hne : ss ≠ [])
    (hcf : ∀ s ∈ ss, ∀ c ∈ s.data, c ≠ ',') :
    splitComma (joinComma ss) = ss := by
  induction ss with
  | nil => exact absurd rfl hne
  | cons s rest ih =>
    rcases rest with _ | ⟨t, ts⟩
    · have hj : joinComma [s] = s := rfl
      unfold splitComma
      rw [hj, splitOnChar_no_sep ',' s.data (hcf s (List.mem_cons_self _ _))]
      simp [asString_data]
    · unfold splitComma
      rw [joinComma_cons s t ts,
        splitOnChar_append ',' s.data _ (hcf s (List.mem_cons_self _ _))]
      simp only [List.map_cons]
      rw [asString_data]
      have hrest := ih (by simp)
        (fun s' hs' => hcf s' (List.mem_cons_of_mem _ hs'))
      unfold splitComma at hrest
      rw [hrest]

theorem parsePairs_encoded (ps : List (String × String))
    (acc : List (String × String))
    (hk : ∀ p ∈ ps, ∀ c ∈ p.1.data, c ≠ ':') :
    parsePairs (ps.map (fun p => p.1 ++ ":" ++ p.2)) acc =
      some (ps.foldl (fun a p => mapSet p.1 p.2 a) acc) := by
  induction ps generalizing acc with
  | nil => rfl
  | cons p rest ih =>
    have hsp : splitN2 (p.1 ++ ":" ++ p.2) = some (p.1, p.2) := by
      unfold splitN2
      have hd : (p.1 ++ ":" ++ p.2).data = p.1.data ++ ':' :: p.2.data := by
        simp [String.data_append]
      rw [hd, splitFirst_encode p.1.data p.2.data
        (hk p (List.mem_cons_self _ _))]
      simp [asString_data]
    simp only [List.map_cons, parsePairs, hsp, List.foldl_cons]
    exact ih (mapSet p.1 p.2 acc)
      (fun q hq => hk q (List.mem_cons_of_mem _ hq))

theorem mapGet_append {α : Type} (q : String) (a b : List (String × α)) :
    mapGet q (a ++ b) = oor (mapGet q a) (mapGet q b) := by
  induction a with
  | nil => rfl
  | cons p rest ih =>
    obtain ⟨k, v⟩ := p
    by_cases hk : k = q
    · simp [mapGet, hk, oor]
    · simp [mapGet, hk, ih]

theorem mapGet_mapSet_oor {α : Type} (q k : String) (v : α)
    (acc : List (String × α)) :
    mapGet q (mapSet k v acc) = oor (mapGet q [(k, v)]) (mapGet q acc) := by
  by_cases hk : k = q
  · subst hk
    rw [mapGet_mapSet_self]
    simp [mapGet, oor]
  · rw [mapGet_mapSet_ne k q v acc hk]
    simp [mapGet, hk, oor]

theorem mapGet_foldl {α : Type} (ps : List (String × α))
    (acc : List (String × α)) (q : String) :
    mapGet q (ps.foldl (fun a p => mapSet p.1 p.2 a) acc) =
      oor (mapGet q ps.reverse) (mapGet q acc) := by
  induction ps generalizing acc with
  | nil => rfl
  | cons p rest ih =>
    simp only [List.foldl_cons, List.reverse_cons]
    rw [ih (mapSet p.1 p.2 acc), mapGet_mapSet_oor, mapGet_append, oor_assoc]

theorem mapGet_eq_none_of_not_mem {α : Type} (q : String)
    (l : List (String × α)) (h : q ∉ l.map Prod.fst) : mapGet q l = none := by
  induction l with
  | nil => rfl
  | cons p rest ih =>
    obtain ⟨k, v⟩ := p
    simp only [List.map_cons, List.mem_cons, not_or] at h
    rw [mapGet, if_neg (fun he => h.1 he.symm)]
    exact ih h.2

theorem mapGet_reverse_nodup {α : Type} (ps : List (String × α)) (q : String)
    (nd : (ps.map Prod.fst).Nodup) : mapGet q ps.reverse = mapGet q ps := by
  induction ps with
  | nil => rfl
  | cons p rest ih =>
    simp only [List.map_cons, List.nodup_cons] at nd
    simp only [List.reverse_cons]
    rw [mapGet_append, ih nd.2]
    by_cases hpq : p.1 = q
    · have hnone : mapGet q rest = none :=
        mapGet_eq_none_of_not_mem q rest (hpq ▸ nd.1)
      rw [hnone]
      obtain ⟨k, v⟩ := p
      simp only at hpq
      simp [mapGet, hpq, oor]
    · obtain ⟨k, v⟩ := p
      simp only at hpq
      simp [mapGet, hpq, oor_none_right]

theorem joinComma_tokOK (ss : List String) (hne : ss ≠ [])
    (hse : ∀ s ∈ ss, s.data ≠ [])
    (hsp : ∀ s ∈ ss, ∀ c ∈ s.data, isSpace c = false) :
    tokOK (joinComma ss) := by
  induction ss with
  | nil => exact absurd rfl hne
  | cons s rest ih =>
    rcases rest with _ | ⟨t, ts⟩
    · exact ⟨hse s (List.mem_cons_self _ _), hsp s (List.mem_cons_self _ _)⟩
    · have hih := ih (by simp) (fun s' hs' => hse s' (List.mem_cons_of_mem _ hs'))
        (fun s' hs' => hsp s' (List.mem_cons_of_mem _ hs'))
      constructor
      · rw [joinComma_cons s t ts]
        rcases hd : s.data with _ | ⟨c, cs⟩
        · simp
        · simp
      · intro c hc
        rw [joinComma_cons s t ts] at hc
        rcases List.mem_append.mp hc with h | h
        · exact hsp s (List.mem_cons_self _ _) c h
        · rcases List.mem_cons.mp h with h | h
          · subst h
            rfl
          · exact hih.2 c h

/-- C3 counterexample: the BATCH message with the single pair
`"a:b" ↦ "c"` — whose tokens contain no whitespace — encodes to
`"BATCH a:b:c 0"`, which decodes to the different mapping `"a" ↦ "b:c"`
(`SplitN(pair, ":", 2)` cuts at the first colon), so encode-then-decode is
not the identity on the claimed domain. -/
theorem c3_counterexample :
    Message.ToBytes ⟨"BATCH", "", "", 0, [("a:b", "c")]⟩ = some "BATCH a:b:c 0" ∧
    parseCommand "BATCH a:b:c 0" =
      Except.ok ⟨"BATCH", "", "", 0, [("a", "b:c")]⟩ ∧
    mapGet "a:b" [("a", "b:c")] = none ∧
    mapGet "a:b" [("a:b", "c")] = some "c" :=
  ⟨rfl, rfl, rfl, rfl⟩

/-- C3 amended: encode-then-decode is the identity (up to the key-value
mapping for BATCH) for the three mutating variants, under the amended side
conditions forced by the counterexample: SET/DEL key and value tokens
non-empty and whitespace-free with the TTL in the 64-bit range; BATCH with
a non-empty pair map of distinct keys, keys free of whitespace, `:` and
`,`, and values free of whitespace and `,`. -/
theorem c3_encode_decode (m : Message) :
    (m.Cmd = "SET" → tokOK m.Key → tokOK m.Value → int64Range m.TTL →
      ∃ raw, m.ToBytes = some raw ∧
        parseCommand raw = Except.ok ⟨"SET", m.Key, m.Value, m.TTL, []⟩) ∧
    (m.Cmd = "DEL" → tokOK m.Key →
      ∃ raw, m.ToBytes = some raw ∧
        parseCommand raw = Except.ok ⟨"DEL", m.Key, "", 0, []⟩) ∧
    (m.Cmd = "BATCH" → m.Pairs ≠ [] → (m.Pairs.map Prod.fst).Nodup →
      (∀ p ∈ m.Pairs, batchKeyOK p.1 ∧ batchValOK p.2) → int64Range m.TTL →
      ∃ raw, m.ToBytes = some raw ∧
        ∃ m2, parseCommand raw = Except.ok m2 ∧ m2.Cmd = "BATCH" ∧
          m2.TTL = m.TTL ∧ ∀ q, mapGet q m2.Pairs = mapGet q m.Pairs) := by
  refine ⟨?_, ?_, ?_⟩
  · intro hcmd hkey hval hrange
    refine ⟨"SET " ++ m.Key ++ " " ++ m.Value ++ " " ++ intToString m.TTL, ?_, ?_⟩
    · simp [Message.ToBytes, hcmd]
    · have hf := fieldsStr_four
        ("SET " ++ m.Key ++ " " ++ m.Value ++ " " ++ intToString m.TTL)
        "SET" m.Key m.Value (intToString m.TTL)
        (by simp [String.data_append, List.append_assoc])
        (by constructor <;> decide) hkey hval (intToString_tokOK m.TTL)
      unfold parseCommand
      rw [hf]
      simp [intToString_parse m.TTL hrange]
  · intro hcmd hkey
    refine ⟨"DEL" ++ " " ++ m.Key, ?_, ?_⟩
    · simp [Message.ToBytes, hcmd]
    · have hf := fieldsStr_two ("DEL" ++ " " ++ m.Key) "DEL" m.Key
        (by simp [String.data_append, List.append_assoc])
        (by constructor <;> decide) hkey
      unfold parseCommand
      rw [hf]
      simp
  · intro hcmd hne hnd hpk hrange
    have hpairdata : ∀ p : String × String,
        (p.1 ++ ":" ++ p.2).data = p.1.data ++ ':' :: p.2.data := by
      intro p
      simp [String.data_append]
    have hpairne : ∀ p ∈ m.Pairs, (p.1 ++ ":" ++ p.2).data ≠ [] := by
      intro p _
      rw [hpairdata p]
      simp
    have hpairsp : ∀ p ∈ m.Pairs, ∀ c ∈ (p.1 ++ ":" ++ p.2).data,
        isSpace c = false ∧ c ≠ ',' := by
      intro p hp c hc
      rw [hpairdata p] at hc
      rcases List.mem_append.mp hc with h | h
      · exact ⟨((hpk p hp).1 c h).1, ((hpk p hp).1 c h).2.2⟩
      · rcases List.mem_cons.mp h with h | h
        · subst h
          exact ⟨rfl, by decide⟩
        · exact ⟨((hpk p hp).2 c h).1, ((hpk p hp).2 c h).2⟩
    have hssne : m.Pairs.map (fun p => p.1 ++ ":" ++ p.2) ≠ [] := by
      simpa using hne
    have hjoin : tokOK (joinComma (m.Pairs.map (fun p => p.1 ++ ":" ++ p.2))) := by
      apply joinComma_tokOK _ hssne
      · intro s hs
        obtain ⟨p, hp, hps⟩ := List.mem_map.mp hs
        subst hps
        exact hpairne p hp
      · intro s hs c hc
        obtain ⟨p, hp, hps⟩ := List.mem_map.mp hs
        subst hps
        exact (hpairsp p hp c hc).1
    refine ⟨"BATCH " ++ joinComma (m.Pairs.map (fun p => p.1 ++ ":" ++ p.2)) ++
      " " ++ intToString m.TTL, ?_, ?_⟩
    · simp [Message.ToBytes, hcmd]
    · have hf := fieldsStr_three
        ("BATCH " ++ joinComma (m.Pairs.map (fun p => p.1 ++ ":" ++ p.2)) ++
          " " ++ intToString m.TTL)
        "BATCH" (joinComma (m.Pairs.map (fun p => p.1 ++ ":" ++ p.2)))
        (intToString m.TTL)
        (by simp [String.data_append, List.append_assoc])
        (by constructor <;> decide) hjoin (intToString_tokOK m.TTL)
      have hsplit : splitComma
          (joinComma (m.Pairs.map (fun p => p.1 ++ ":" ++ p.2))) =
          m.Pairs.map (fun p => p.1 ++ ":" ++ p.2) := by
        apply splitComma_joinComma _ hssne
        intro s hs c hc
        obtain ⟨p, hp, hps⟩ := List.mem_map.mp hs
        subst hps
        exact (hpairsp p hp c hc).2
      have hpp : parsePairs
          (m.Pairs.map (fun p => p.1 ++ ":" ++ p.2)) [] =
          some (m.Pairs.foldl (fun a p => mapSet p.1 p.2 a) []) := by
        apply parsePairs_encoded
        intro p hp c hc
        exact ((hpk p hp).1 c hc).2.1
      refine ⟨⟨"BATCH", "", "", m.TTL,
        m.Pairs.foldl (fun a p => mapSet p.1 p.2 a) []⟩, ?_, rfl, rfl, ?_⟩
      · unfold parseCommand
        rw [hf]
        simp [hsplit, hpp, intToString_parse m.TTL hrange]
      · intro q
        show mapGet q (m.Pairs.foldl (fun a p => mapSet p.1 p.2 a) []) = _
        rw [mapGet_foldl, mapGet_reverse_nodup m.Pairs q hnd]
        exact oor_none_right _

/-- Witness for the amended C3: the SET message `⟨SET, foo, bar, 5⟩`
round-trips. -/
theorem c3_witness :
    ∃ raw, Message.ToBytes ⟨"SET", "foo", "bar", 5, []⟩ = some raw ∧
      parseCommand raw = Except.ok ⟨"SET", "foo", "bar", 5, []⟩ :=
  (c3_encode_decode ⟨"SET", "foo", "bar", 5, []⟩).1 rfl
    (by constructor <;> decide) (by constructor <;> decide) (by constructor <;> decide)

end DistCache
